import Mathlib

/-!
Verification development for the stateful, resumable graph-execution engine
exercised by the AgenticsFrameworksParser repository (the LangGraph chatbot
scripts under src/langgraph_impl/).  Pure node bodies and routing functions
are embedded directly from the Python sources; the engine itself (the
per-key reducers, the superstep executor, the checkpoint store and the
interrupt/resume protocol) is LangGraph library code that is not part of
the repository, so those components are modelled from the specification.
-/

/-- A conversational message carrying an identity, as handled by the
append-with-identity reducer on the messages state key. -/
structure Msg where
  id : Nat
  text : String
deriving DecidableEq, Repr

/-- The sequence of identities of a message list, in order. -/
def idsOf (l : List Msg) : List Nat := l.map (fun m => m.id)

/-- Whether some message in the list carries identity i. -/
def hasId : List Msg → Nat → Bool
  | [], _ => false
  | c :: cs, i => if c.id = i then true else hasId cs i

/-- The first message in the list carrying identity i, if any. -/
def firstAt : List Msg → Nat → Option Msg
  | [], _ => none
  | c :: cs, i => if c.id = i then some c else firstAt cs i

/-- Replace the first message whose identity matches that of m by m,
leaving everything else (including the order) unchanged. -/
def replaceById : List Msg → Msg → List Msg
  | [], _ => []
  | c :: cs, m => if c.id = m.id then m :: cs else c :: replaceById cs m

/-- Modelled from the spec: one step of the append-with-identity reducer
(StateReducer policy, spec section 4.2): if an item with the same identity
already exists in the current sequence it is replaced in place, otherwise
the item is appended at the end. -/
def mergeOne (cur : List Msg) (m : Msg) : List Msg :=
  if hasId cur m.id then replaceById cur m else cur ++ [m]

/-- Modelled from the spec: the add_messages append-with-identity reducer
attached to the messages state key (01_chatbot.py lines 16-17 and
chatbot_memory.py lines 53-54 only declare it; the reducer itself is
LangGraph library code absent from src/).  The incoming sequence is
scanned left to right and each item is merged by mergeOne. -/
def add_messages (cur inc : List Msg) : List Msg := inc.foldl mergeOne cur

theorem mergeOne_of_has (c : List Msg) (m : Msg) (h : hasId c m.id = true) :
    mergeOne c m = replaceById c m := by
  unfold mergeOne
  rw [if_pos h]

theorem mergeOne_of_not_has (c : List Msg) (m : Msg) (h : hasId c m.id = false) :
    mergeOne c m = c ++ [m] := by
  unfold mergeOne
  rw [h]
  rfl

theorem idsOf_replaceById (l : List Msg) (m : Msg) :
    idsOf (replaceById l m) = idsOf l := by
  induction l with
  | nil => rfl
  | cons c cs ih =>
    by_cases h : c.id = m.id
    · simp [replaceById, h, idsOf]
    · simp only [replaceById, if_neg h, idsOf, List.map_cons]
      simpa [idsOf] using ih

theorem hasId_eq_mem (l : List Msg) (i : Nat) : hasId l i = true ↔ i ∈ idsOf l := by
  induction l with
  | nil => simp [hasId, idsOf]
  | cons c cs ih =>
    by_cases h : c.id = i
    · simp [hasId, idsOf, h]
    · simp [hasId, idsOf, h, ih, Ne.symm h]

theorem hasId_congr {S T : List Msg} (h : idsOf S = idsOf T) (i : Nat) :
    hasId S i = hasId T i := by
  by_cases hi : i ∈ idsOf T
  · rw [(hasId_eq_mem S i).mpr (h ▸ hi), (hasId_eq_mem T i).mpr hi]
  · have hS : hasId S i = false := by
      rw [← Bool.not_eq_true]
      intro hc
      exact hi (h ▸ (hasId_eq_mem S i).mp hc)
    have hT : hasId T i = false := by
      rw [← Bool.not_eq_true]
      intro hc
      exact hi ((hasId_eq_mem T i).mp hc)
    rw [hS, hT]

theorem hasId_replaceById (l : List Msg) (m : Msg) (i : Nat) :
    hasId (replaceById l m) i = hasId l i :=
  hasId_congr (idsOf_replaceById l m) i

theorem hasId_append (l1 l2 : List Msg) (i : Nat) :
    hasId (l1 ++ l2) i = (hasId l1 i || hasId l2 i) := by
  induction l1 with
  | nil => simp [hasId]
  | cons c cs ih => by_cases h : c.id = i <;> simp [hasId, h, ih]

theorem hasId_mergeOne_self (c : List Msg) (m : Msg) :
    hasId (mergeOne c m) m.id = true := by
  unfold mergeOne
  by_cases h : hasId c m.id = true
  · rw [if_pos h, hasId_replaceById, h]
  · rw [if_neg h, hasId_append]
    simp [hasId]

theorem hasId_mergeOne_mono (c : List Msg) (m : Msg) (i : Nat) (h : hasId c i = true) :
    hasId (mergeOne c m) i = true := by
  unfold mergeOne
  by_cases hc : hasId c m.id = true
  · rw [if_pos hc, hasId_replaceById, h]
  · rw [if_neg hc, hasId_append, h]
    rfl

theorem hasId_add_messages_mono (r : List Msg) :
    ∀ (c : List Msg) (i : Nat), hasId c i = true → hasId (add_messages c r) i = true := by
  induction r with
  | nil => intro c i h; exact h
  | cons m r ih =>
    intro c i h
    exact ih (mergeOne c m) i (hasId_mergeOne_mono c m i h)

theorem firstAt_replaceById_ne (l : List Msg) (m : Msg) (i : Nat) (h : ¬ m.id = i) :
    firstAt (replaceById l m) i = firstAt l i := by
  induction l with
  | nil => rfl
  | cons c cs ih =>
    by_cases hc : c.id = m.id
    · have hci : ¬ c.id = i := by rw [hc]; exact h
      rw [replaceById, if_pos hc, firstAt, if_neg h, firstAt, if_neg hci]
    · by_cases hci : c.id = i
      · rw [replaceById, if_neg hc, firstAt, if_pos hci, firstAt, if_pos hci]
      · rw [replaceById, if_neg hc, firstAt, if_neg hci, firstAt, if_neg hci, ih]

theorem firstAt_append_ne (l : List Msg) (m : Msg) (i : Nat) (h : ¬ m.id = i) :
    firstAt (l ++ [m]) i = firstAt l i := by
  induction l with
  | nil => simp [firstAt, h]
  | cons c cs ih => by_cases hc : c.id = i <;> simp [firstAt, hc, ih]

theorem firstAt_mergeOne_ne (S : List Msg) (x : Msg) (i : Nat) (h : ¬ x.id = i) :
    firstAt (mergeOne S x) i = firstAt S i := by
  unfold mergeOne
  by_cases hS : hasId S x.id = true
  · rw [if_pos hS]
    exact firstAt_replaceById_ne S x i h
  · rw [if_neg hS]
    exact firstAt_append_ne S x i h

theorem firstAt_replaceById_self (l : List Msg) (m : Msg) (h : hasId l m.id = true) :
    firstAt (replaceById l m) m.id = some m := by
  induction l with
  | nil => simp [hasId] at h
  | cons c cs ih =>
    by_cases hc : c.id = m.id
    · simp [replaceById, hc, firstAt]
    · have h2 : hasId cs m.id = true := by simpa [hasId, hc] using h
      simp [replaceById, hc, firstAt, ih h2]

theorem firstAt_append_self (l : List Msg) (m : Msg) (h : hasId l m.id = false) :
    firstAt (l ++ [m]) m.id = some m := by
  induction l with
  | nil => simp [firstAt]
  | cons c cs ih =>
    by_cases hc : c.id = m.id
    · simp [hasId, hc] at h
    · have h2 : hasId cs m.id = false := by simpa [hasId, hc] using h
      simp [firstAt, hc, ih h2]

theorem firstAt_mergeOne_self (c : List Msg) (m : Msg) :
    firstAt (mergeOne c m) m.id = some m := by
  unfold mergeOne
  by_cases h : hasId c m.id = true
  · rw [if_pos h]
    exact firstAt_replaceById_self c m h
  · rw [if_neg h]
    exact firstAt_append_self c m (by simpa using h)

theorem firstAt_add_messages_ne (r : List Msg) :
    ∀ (S : List Msg) (i : Nat), hasId r i = false →
      firstAt (add_messages S r) i = firstAt S i := by
  induction r with
  | nil => intro S i _; rfl
  | cons m r ih =>
    intro S i h
    have hm : ¬ m.id = i := by
      intro hh
      simp [hasId, hh] at h
    have hr : hasId r i = false := by simpa [hasId, hm] using h
    show firstAt (add_messages (mergeOne S m) r) i = firstAt S i
    rw [ih (mergeOne S m) i hr]
    exact firstAt_mergeOne_ne S m i hm

theorem replaceById_firstAt_self (l : List Msg) (m : Msg) (h : firstAt l m.id = some m) :
    replaceById l m = l := by
  induction l with
  | nil => simp [firstAt] at h
  | cons c cs ih =>
    by_cases hc : c.id = m.id
    · have hcm : c = m := by
        have hh := h
        simp [firstAt, hc] at hh
        exact hh
      simp [replaceById, hc, hcm]
    · have h2 : firstAt cs m.id = some m := by simpa [firstAt, hc] using h
      simp [replaceById, hc, ih h2]

/-- Lists S and T agree except possibly at the first occurrence of identity i,
where both still carry identity i and have identical tails. -/
inductive EqE (i : Nat) : List Msg → List Msg → Prop
  | nil : EqE i [] []
  | fst {a b : Msg} (l : List Msg) (ha : a.id = i) (hb : b.id = i) : EqE i (a :: l) (b :: l)
  | cons (x : Msg) {l l2 : List Msg} (hx : ¬ x.id = i) (h : EqE i l l2) : EqE i (x :: l) (x :: l2)

theorem EqE_refl (i : Nat) (l : List Msg) : EqE i l l := by
  induction l with
  | nil => exact EqE.nil
  | cons c cs ih =>
    by_cases h : c.id = i
    · exact EqE.fst cs h h
    · exact EqE.cons c h ih

theorem EqE_idsOf {i : Nat} {S T : List Msg} (h : EqE i S T) : idsOf S = idsOf T := by
  induction h with
  | nil => rfl
  | fst l ha hb => simp [idsOf, ha, hb]
  | cons x hx h ih =>
    simp only [idsOf, List.map_cons] at ih ⊢
    rw [ih]

theorem EqE_eq_of_not_has {i : Nat} {S T : List Msg} (h : EqE i S T) (hS : hasId S i = false) :
    S = T := by
  induction h with
  | nil => rfl
  | fst l ha hb => simp [hasId, ha] at hS
  | cons x hx h ih =>
    rename_i l l2
    have h2 : hasId l i = false := by simpa [hasId, hx] using hS
    rw [ih h2]

theorem replaceById_EqE_same {i : Nat} {S T : List Msg} (m : Msg) (hm : m.id = i) (h : EqE i S T) :
    replaceById S m = replaceById T m := by
  induction h with
  | nil => rfl
  | fst l ha hb =>
    simp [replaceById, ha, hb, hm]
  | cons x hx h ih =>
    have hxm : ¬ x.id = m.id := by rw [hm]; exact hx
    simp [replaceById, hxm, ih]

theorem mergeOne_EqE_same {i : Nat} {S T : List Msg} (m : Msg) (hm : m.id = i) (h : EqE i S T) :
    mergeOne S m = mergeOne T m := by
  unfold mergeOne
  have hh : hasId S m.id = hasId T m.id := hasId_congr (EqE_idsOf h) m.id
  by_cases hS : hasId S m.id = true
  · rw [if_pos hS, if_pos (hh ▸ hS)]
    exact replaceById_EqE_same m hm h
  · have hS2 : hasId S m.id = false := by simpa using hS
    have hT2 : hasId T m.id = false := by rw [← hh]; exact hS2
    have hST : S = T := EqE_eq_of_not_has h (by rw [← hm]; exact hS2)
    rw [hST]

theorem replaceById_EqE_ne {i : Nat} {S T : List Msg} (m : Msg) (hm : ¬ m.id = i) (h : EqE i S T) :
    EqE i (replaceById S m) (replaceById T m) := by
  induction h with
  | nil => exact EqE.nil
  | fst l ha hb =>
    rename_i a b
    have hA : ¬ a.id = m.id := by rw [ha]; intro hh; exact hm hh.symm
    have hB : ¬ b.id = m.id := by rw [hb]; intro hh; exact hm hh.symm
    rw [replaceById, if_neg hA, replaceById, if_neg hB]
    exact EqE.fst (replaceById l m) ha hb
  | cons x hx h ih =>
    by_cases hxm : x.id = m.id
    · rw [replaceById, if_pos hxm, replaceById, if_pos hxm]
      exact EqE.cons m hm h
    · rw [replaceById, if_neg hxm, replaceById, if_neg hxm]
      exact EqE.cons x hx ih

theorem EqE_append {i : Nat} {S T : List Msg} (h : EqE i S T) (m : Msg) :
    EqE i (S ++ [m]) (T ++ [m]) := by
  induction h with
  | nil => exact EqE_refl i [m]
  | fst l ha hb => exact EqE.fst (l ++ [m]) ha hb
  | cons x hx h ih => exact EqE.cons x hx ih

theorem mergeOne_EqE_ne {i : Nat} {S T : List Msg} (m : Msg) (hm : ¬ m.id = i) (h : EqE i S T) :
    EqE i (mergeOne S m) (mergeOne T m) := by
  unfold mergeOne
  have hh : hasId S m.id = hasId T m.id := hasId_congr (EqE_idsOf h) m.id
  by_cases hS : hasId S m.id = true
  · rw [if_pos hS, if_pos (hh ▸ hS)]
    exact replaceById_EqE_ne m hm h
  · rw [if_neg hS, if_neg (fun hc => hS (hh ▸ hc))]
    exact EqE_append h m

theorem add_messages_EqE (r : List Msg) :
    ∀ {i : Nat} {S T : List Msg}, EqE i S T →
      (hasId r i = true → add_messages S r = add_messages T r)
      ∧ (hasId r i = false → EqE i (add_messages S r) (add_messages T r)) := by
  induction r with
  | nil =>
    intro i S T h
    refine ⟨fun hc => ?_, fun _ => h⟩
    simp [hasId] at hc
  | cons m r ih =>
    intro i S T h
    by_cases hm : m.id = i
    · have heq : mergeOne S m = mergeOne T m := mergeOne_EqE_same m hm h
      constructor
      · intro _
        show add_messages (mergeOne S m) r = add_messages (mergeOne T m) r
        rw [heq]
      · intro _
        show EqE i (add_messages (mergeOne S m) r) (add_messages (mergeOne T m) r)
        rw [heq]
        exact EqE_refl _ _
    · have h2 : EqE i (mergeOne S m) (mergeOne T m) := mergeOne_EqE_ne m hm h
      have hr : hasId (m :: r) i = hasId r i := by simp [hasId, hm]
      constructor
      · intro hc
        rw [hr] at hc
        exact (ih h2).1 hc
      · intro hc
        rw [hr] at hc
        exact (ih h2).2 hc

theorem EqE_replaceById_left (S : List Msg) (m : Msg) : EqE m.id (replaceById S m) S := by
  induction S with
  | nil => exact EqE.nil
  | cons c cs ih =>
    by_cases hc : c.id = m.id
    · rw [replaceById, if_pos hc]
      exact EqE.fst cs rfl hc
    · rw [replaceById, if_neg hc]
      exact EqE.cons c hc ih

theorem add_messages_idem (r : List Msg) :
    ∀ c : List Msg, add_messages (add_messages c r) r = add_messages c r := by
  induction r with
  | nil => intro c; rfl
  | cons m r ih =>
    intro c
    show add_messages (mergeOne (add_messages (mergeOne c m) r) m) r
        = add_messages (mergeOne c m) r
    have hhas : hasId (add_messages (mergeOne c m) r) m.id = true :=
      hasId_add_messages_mono r (mergeOne c m) m.id (hasId_mergeOne_self c m)
    rw [mergeOne_of_has _ m hhas]
    by_cases hr : hasId r m.id = true
    · have hE : EqE m.id (replaceById (add_messages (mergeOne c m) r) m)
          (add_messages (mergeOne c m) r) :=
        EqE_replaceById_left (add_messages (mergeOne c m) r) m
      rw [(add_messages_EqE r hE).1 hr]
      exact ih (mergeOne c m)
    · have hr2 : hasId r m.id = false := by simpa using hr
      have hfix : firstAt (add_messages (mergeOne c m) r) m.id = some m := by
        rw [firstAt_add_messages_ne r (mergeOne c m) m.id hr2]
        exact firstAt_mergeOne_self c m
      rw [replaceById_firstAt_self _ m hfix]
      exact ih (mergeOne c m)

theorem mergeOne_replaces_in_place (c : List Msg) (m : Msg) (h : hasId c m.id = true) :
    mergeOne c m = replaceById c m
      ∧ idsOf (mergeOne c m) = idsOf c
      ∧ (mergeOne c m).length = c.length := by
  have h1 : mergeOne c m = replaceById c m := by
    unfold mergeOne
    rw [if_pos h]
  refine ⟨h1, ?_, ?_⟩
  · rw [h1, idsOf_replaceById]
  · have h2 : idsOf (mergeOne c m) = idsOf c := by rw [h1, idsOf_replaceById]
    have := congrArg List.length h2
    simpa [idsOf] using this

/-- C1: the append-with-identity reducer (add_messages on the messages state
key) is order-stable and idempotent: an incoming item whose identity already
occurs in the current sequence replaces that item in place (the identity
order and the length are preserved, nothing is appended); merging the list
holding message id 1 text a with the list holding message id 1 text b yields
the single message id 1 text b, of length 1; and applying the same update
twice equals applying it once, for every current and incoming sequence. -/
theorem C1_add_messages_order_stable_idem :
    (add_messages [⟨1, "a"⟩] [⟨1, "b"⟩] = [⟨1, "b"⟩]
      ∧ (add_messages [⟨1, "a"⟩] [⟨1, "b"⟩]).length = 1)
    ∧ (∀ (c : List Msg) (m : Msg), hasId c m.id = true →
        mergeOne c m = replaceById c m
          ∧ idsOf (mergeOne c m) = idsOf c
          ∧ (mergeOne c m).length = c.length)
    ∧ (∀ (c r : List Msg), add_messages (add_messages c r) r = add_messages c r) :=
  ⟨⟨by decide, by decide⟩,
   fun c m h => mergeOne_replaces_in_place c m h,
   fun c r => add_messages_idem r c⟩

/-- Witness for C1 at concrete inputs. -/
theorem C1_add_messages_order_stable_idem_witness :
    (mergeOne [⟨1, "a"⟩] ⟨1, "b"⟩ = replaceById [⟨1, "a"⟩] ⟨1, "b"⟩
      ∧ idsOf (mergeOne [⟨1, "a"⟩] ⟨1, "b"⟩) = idsOf [⟨1, "a"⟩]
      ∧ (mergeOne [⟨1, "a"⟩] ⟨1, "b"⟩).length = ([⟨1, "a"⟩] : List Msg).length)
    ∧ add_messages (add_messages [⟨2, "x"⟩] [⟨2, "y"⟩]) [⟨2, "y"⟩]
        = add_messages [⟨2, "x"⟩] [⟨2, "y"⟩] :=
  ⟨C1_add_messages_order_stable_idem.2.1 [⟨1, "a"⟩] ⟨1, "b"⟩ (by decide),
   C1_add_messages_order_stable_idem.2.2 [⟨2, "x"⟩] [⟨2, "y"⟩]⟩

/-- Outcome of invoking a node function: a partial state update, an interrupt
signal carrying a payload, or a raised exception. -/
inductive NodeRun (pi phi : Type) where
  | update (u : pi)
  | interruptSig (payload : phi)
  | failure (e : String)
deriving DecidableEq, Repr

/-- Modelled from the spec: a Checkpoint record (spec section 3 data model):
immutable id, nullable parent, state snapshot, ordered pending-node set, the
WAITING flag of the run, and the pending interrupt payload if any. -/
structure Checkpoint (sigma phi : Type) where
  id : Nat
  parent : Option Nat
  state : sigma
  pending : List String
  waiting : Bool
  payload : Option phi
deriving DecidableEq, Repr

/-- Modelled from the spec: a Thread owns its append-only per-thread
checkpoint log (CheckpointStore reference backend, spec section 4.4). -/
structure Thread (sigma phi : Type) where
  log : List (Checkpoint sigma phi)
deriving DecidableEq, Repr

/-- Modelled from the spec: the compiled engine view a thread executes
against: node functions (receiving the state view and, on re-entry, the
injected resume value), the per-key merge of a partial update, edge
resolution producing the next pending nodes (empty for END, an error for a
RoutingError), and the interrupt-before policy set. -/
structure Engine (sigma pi rho phi : Type) where
  nodeFn : String → sigma → Option rho → NodeRun pi phi
  merge : sigma → pi → sigma
  route : String → sigma → Except String (List String)
  interruptBefore : List String

/-- Executor status after a superstep (spec section 4.3 state machine). -/
inductive Status where
  | running
  | waiting
  | done
  | nodeErr (e : String)
  | routeErr (e : String)
deriving DecidableEq, Repr

/-- Modelled from the spec: CheckpointStore.put — append-only write that
assigns the next fresh id and returns the extended thread and the new
checkpoint. -/
def putCp {sigma phi : Type} (th : Thread sigma phi) (parent : Option Nat) (st : sigma)
    (pending : List String) (w : Bool) (pl : Option phi) :
    Thread sigma phi × Checkpoint sigma phi :=
  let cp : Checkpoint sigma phi := ⟨th.log.length, parent, st, pending, w, pl⟩
  (⟨th.log ++ [cp]⟩, cp)

/-- Result of one superstep: the (possibly extended) thread, the status, the
newly persisted checkpoint if one was written, and the node names that were
actually invoked during the superstep. -/
structure StepOut (sigma phi : Type) where
  thread : Thread sigma phi
  status : Status
  newCp : Option (Checkpoint sigma phi)
  executed : List String
deriving DecidableEq, Repr

/-- Modelled from the spec: one superstep of the executor (spec section 4.3,
steps 1 to 9): take the head pending node; if it is registered
interrupt-before and the checkpoint is not already a WAITING checkpoint,
halt before running it, persisting a new checkpoint with the same pending
nodes and unchanged state; otherwise run the node (feeding it the resume
value, if any, as the return of its interrupt call): a raising node aborts
the superstep with no checkpoint written; an interrupt signal persists a
WAITING checkpoint carrying the payload and the same pending node; a normal
update is merged via the reducers, the outgoing edges are resolved (an
unmapped label surfaces a RoutingError with no checkpoint written) and a new
checkpoint with the merged state and resolved pending nodes is persisted. -/
def superstep {sigma pi rho phi : Type} (E : Engine sigma pi rho phi)
    (th : Thread sigma phi) (cp : Checkpoint sigma phi) (resume : Option rho) :
    StepOut sigma phi :=
  match cp.pending with
  | [] => ⟨th, Status.done, none, []⟩
  | n :: rest =>
    if n ∈ E.interruptBefore ∧ cp.waiting = false then
      let p := putCp th (some cp.id) cp.state cp.pending true none
      ⟨p.1, Status.waiting, some p.2, []⟩
    else
      match E.nodeFn n cp.state resume with
      | NodeRun.failure e => ⟨th, Status.nodeErr e, none, [n]⟩
      | NodeRun.interruptSig pl =>
        let p := putCp th (some cp.id) cp.state cp.pending true (some pl)
        ⟨p.1, Status.waiting, some p.2, [n]⟩
      | NodeRun.update u =>
        let s2 := E.merge cp.state u
        match E.route n s2 with
        | Except.error l => ⟨th, Status.routeErr l, none, [n]⟩
        | Except.ok nxt =>
          let p := putCp th (some cp.id) s2 (rest ++ nxt) false none
          ⟨p.1, if (rest ++ nxt).isEmpty then Status.done else Status.running, some p.2, [n]⟩

/-- Modelled from the spec: the superstep loop (spec section 4.3 step 9),
driven from an explicitly chosen starting checkpoint (which is how time
travel resumes from a historical checkpoint): iterate supersteps, feeding
the resume command only to the first one, until DONE, WAITING, an error, or
fuel exhaustion. -/
def runLoop {sigma pi rho phi : Type} (E : Engine sigma pi rho phi) :
    Nat → Thread sigma phi → Checkpoint sigma phi → Option rho → Thread sigma phi × Status
  | 0, th, _, _ => (th, Status.running)
  | Nat.succ fuel, th, cp, resume =>
    let out := superstep E th cp resume
    match out.newCp with
    | some cp2 =>
      if out.status = Status.running then runLoop E fuel out.thread cp2 none
      else (out.thread, out.status)
    | none => (out.thread, out.status)

theorem superstep_halt {sigma pi rho phi : Type} (E : Engine sigma pi rho phi)
    (th : Thread sigma phi) (cp : Checkpoint sigma phi) (resume : Option rho)
    (n : String) (rest : List String)
    (hp : cp.pending = n :: rest) (hn : n ∈ E.interruptBefore) (hw : cp.waiting = false) :
    superstep E th cp resume =
      ⟨⟨th.log ++ [⟨th.log.length, some cp.id, cp.state, n :: rest, true, none⟩]⟩,
        Status.waiting,
        some ⟨th.log.length, some cp.id, cp.state, n :: rest, true, none⟩, []⟩ := by
  unfold superstep
  rw [hp]
  simp only [putCp]
  rw [if_pos ⟨hn, hw⟩]

theorem superstep_fail {sigma pi rho phi : Type} (E : Engine sigma pi rho phi)
    (th : Thread sigma phi) (cp : Checkpoint sigma phi) (resume : Option rho)
    (n : String) (rest : List String) (e : String)
    (hp : cp.pending = n :: rest)
    (hcond : ¬(n ∈ E.interruptBefore ∧ cp.waiting = false))
    (hf : E.nodeFn n cp.state resume = NodeRun.failure e) :
    superstep E th cp resume = ⟨th, Status.nodeErr e, none, [n]⟩ := by
  unfold superstep
  rw [hp]
  simp only [putCp]
  rw [if_neg hcond, hf]

theorem superstep_interrupt {sigma pi rho phi : Type} (E : Engine sigma pi rho phi)
    (th : Thread sigma phi) (cp : Checkpoint sigma phi) (resume : Option rho)
    (n : String) (rest : List String) (pl : phi)
    (hp : cp.pending = n :: rest)
    (hcond : ¬(n ∈ E.interruptBefore ∧ cp.waiting = false))
    (hf : E.nodeFn n cp.state resume = NodeRun.interruptSig pl) :
    superstep E th cp resume =
      ⟨⟨th.log ++ [⟨th.log.length, some cp.id, cp.state, n :: rest, true, some pl⟩]⟩,
        Status.waiting,
        some ⟨th.log.length, some cp.id, cp.state, n :: rest, true, some pl⟩, [n]⟩ := by
  unfold superstep
  rw [hp]
  simp only [putCp]
  rw [if_neg hcond, hf]

theorem superstep_run {sigma pi rho phi : Type} (E : Engine sigma pi rho phi)
    (th : Thread sigma phi) (cp : Checkpoint sigma phi) (resume : Option rho)
    (n : String) (rest : List String) (u : pi) (nxt : List String)
    (hp : cp.pending = n :: rest)
    (hcond : ¬(n ∈ E.interruptBefore ∧ cp.waiting = false))
    (hu : E.nodeFn n cp.state resume = NodeRun.update u)
    (hr : E.route n (E.merge cp.state u) = Except.ok nxt) :
    superstep E th cp resume =
      ⟨⟨th.log ++ [⟨th.log.length, some cp.id, E.merge cp.state u, rest ++ nxt, false, none⟩]⟩,
        (if (rest ++ nxt).isEmpty then Status.done else Status.running),
        some ⟨th.log.length, some cp.id, E.merge cp.state u, rest ++ nxt, false, none⟩,
        [n]⟩ := by
  unfold superstep
  rw [hp]
  simp only [putCp]
  rw [if_neg hcond, hu]
  simp only [hr]

theorem superstep_routeErr {sigma pi rho phi : Type} (E : Engine sigma pi rho phi)
    (th : Thread sigma phi) (cp : Checkpoint sigma phi) (resume : Option rho)
    (n : String) (rest : List String) (u : pi) (l : String)
    (hp : cp.pending = n :: rest)
    (hcond : ¬(n ∈ E.interruptBefore ∧ cp.waiting = false))
    (hu : E.nodeFn n cp.state resume = NodeRun.update u)
    (hr : E.route n (E.merge cp.state u) = Except.error l) :
    superstep E th cp resume = ⟨th, Status.routeErr l, none, [n]⟩ := by
  unfold superstep
  rw [hp]
  simp only [putCp]
  rw [if_neg hcond, hu]
  simp only [hr]

theorem superstep_done {sigma pi rho phi : Type} (E : Engine sigma pi rho phi)
    (th : Thread sigma phi) (cp : Checkpoint sigma phi) (resume : Option rho)
    (hp : cp.pending = []) :
    superstep E th cp resume = ⟨th, Status.done, none, []⟩ := by
  unfold superstep
  rw [hp]

/-- C2: for a graph compiled with tools registered interrupt-before (as
chatbot_hitl.py lines 144 to 148 do), whenever routing has selected the
tools node (the head checkpoint has pending nodes exactly tools and is not
already halted), the next superstep halts before running it: a new
checkpoint is persisted with pending nodes tools, unchanged state and the
WAITING flag, no node is executed, and its parent is the head; a subsequent
resume on the persisted waiting checkpoint (as stream_graph_updates lines
196 to 210 do by streaming None on the same thread) executes the tools node
exactly once and advances the head to a freshly persisted checkpoint. -/
theorem C2_interrupt_before_tools {sigma pi rho phi : Type}
    (E : Engine sigma pi rho phi) (th : Thread sigma phi) (cp : Checkpoint sigma phi)
    (hE : E.interruptBefore = ["tools"])
    (hp : cp.pending = ["tools"]) (hw : cp.waiting = false) :
    ∃ cp2 : Checkpoint sigma phi,
      superstep E th cp none = ⟨⟨th.log ++ [cp2]⟩, Status.waiting, some cp2, []⟩
      ∧ cp2.pending = ["tools"] ∧ cp2.state = cp.state ∧ cp2.waiting = true
      ∧ cp2.parent = some cp.id
      ∧ ∀ (resume : Option rho) (u : pi) (nxt : List String),
          E.nodeFn "tools" cp.state resume = NodeRun.update u →
          E.route "tools" (E.merge cp.state u) = Except.ok nxt →
          ∃ cp3 : Checkpoint sigma phi,
            superstep E ⟨th.log ++ [cp2]⟩ cp2 resume =
              ⟨⟨th.log ++ [cp2] ++ [cp3]⟩,
                (if nxt.isEmpty then Status.done else Status.running), some cp3, ["tools"]⟩
            ∧ cp3.state = E.merge cp.state u ∧ cp3.pending = nxt ∧ cp3.waiting = false
            ∧ cp3.parent = some cp2.id := by
  refine ⟨⟨th.log.length, some cp.id, cp.state, ["tools"], true, none⟩, ?_, rfl, rfl, rfl, rfl, ?_⟩
  · exact superstep_halt E th cp none "tools" [] hp (by rw [hE]; exact List.mem_singleton.mpr rfl) hw
  · intro resume u nxt hu hr
    refine ⟨⟨(th.log ++ [(⟨th.log.length, some cp.id, cp.state, ["tools"], true, none⟩ :
        Checkpoint sigma phi)]).length,
      some th.log.length, E.merge cp.state u, nxt, false, none⟩, ?_, rfl, rfl, rfl, rfl⟩
    have h := superstep_run E
      ⟨th.log ++ [⟨th.log.length, some cp.id, cp.state, ["tools"], true, none⟩]⟩
      ⟨th.log.length, some cp.id, cp.state, ["tools"], true, none⟩ resume "tools" [] u nxt rfl
      (by intro hc; exact absurd hc.2 (by simp)) hu hr
    simpa using h

/-- A trivial concrete engine with the tools node registered
interrupt-before, used to witness C2. -/
def demoHitlEngine : Engine Nat Nat Unit Unit :=
  { nodeFn := fun _ s _ => NodeRun.update (s + 1)
    merge := fun s u => s + u
    route := fun _ _ => Except.ok []
    interruptBefore := ["tools"] }

/-- The head checkpoint of the witness thread for C2: routing has selected
the tools node. -/
def demoCp : Checkpoint Nat Unit := ⟨0, none, 0, ["tools"], false, none⟩

/-- The witness thread for C2. -/
def demoThread : Thread Nat Unit := ⟨[demoCp]⟩

/-- Witness for C2 at a concrete engine, thread and checkpoint. -/
theorem C2_interrupt_before_tools_witness :
    (superstep demoHitlEngine demoThread demoCp none).status = Status.waiting
    ∧ (superstep demoHitlEngine demoThread demoCp none).executed = [] := by
  obtain ⟨cp2, h1, -, -, -, -, -⟩ :=
    C2_interrupt_before_tools demoHitlEngine demoThread demoCp rfl rfl rfl
  rw [h1]
  exact ⟨rfl, rfl⟩

/-- The payload of the human_assistance interrupt call. -/
structure HQuery where
  query : String
deriving DecidableEq, Repr

/-- The resume value supplied by the human via a resume Command. -/
structure HResp where
  data : String
deriving DecidableEq, Repr

/-- Embeds the human_assistance tool (src/langgraph_impl/chatbot_hitl.py,
lines 80 to 87): on first entry it calls the interrupt primitive with a
payload carrying the query; on logical re-entry the interrupt call returns
the injected resume value, of which the tool returns the data field.  The
control transfer of the interrupt itself is engine behaviour modelled from
the spec, section 4.5. -/
def human_assistance (query : String) (resume : Option HResp) : NodeRun String HQuery :=
  match resume with
  | none => NodeRun.interruptSig ⟨query⟩
  | some r => NodeRun.update r.data

/-- The engine wiring human_assistance as its single node; the state is the
list of strings the node has returned so far. -/
def haEngine (query : String) : Engine (List String) String HResp HQuery :=
  { nodeFn := fun n _ r =>
      if n = "human_assistance" then human_assistance query r
      else NodeRun.failure "unknown node"
    merge := fun s u => s ++ [u]
    route := fun _ _ => Except.ok []
    interruptBefore := [] }

/-- C3: a node calling the interrupt primitive halts the superstep with a
WAITING checkpoint carrying the interrupt payload and the same pending node;
the value later supplied via a resume Command becomes exactly the return
value of that interrupt call when the node is re-entered, so
human_assistance returns the data field of the resume value it was given,
and the merged state of the advanced checkpoint records it. -/
theorem C3_interrupt_resume_returns_value (q : String) (th : Thread (List String) HQuery)
    (cp : Checkpoint (List String) HQuery) (hp : cp.pending = ["human_assistance"]) :
    (∀ v : HResp, human_assistance q (some v) = NodeRun.update v.data)
    ∧ (cp.waiting = false →
        superstep (haEngine q) th cp none =
          ⟨⟨th.log ++ [⟨th.log.length, some cp.id, cp.state, ["human_assistance"], true, some ⟨q⟩⟩]⟩,
            Status.waiting,
            some ⟨th.log.length, some cp.id, cp.state, ["human_assistance"], true, some ⟨q⟩⟩,
            ["human_assistance"]⟩)
    ∧ (∀ v : HResp,
        superstep (haEngine q) th cp (some v) =
          ⟨⟨th.log ++ [⟨th.log.length, some cp.id, cp.state ++ [v.data], [], false, none⟩]⟩,
            Status.done,
            some ⟨th.log.length, some cp.id, cp.state ++ [v.data], [], false, none⟩,
            ["human_assistance"]⟩) := by
  refine ⟨fun v => rfl, fun hw => ?_, fun v => ?_⟩
  · exact superstep_interrupt (haEngine q) th cp none "human_assistance" [] ⟨q⟩ hp
      (by intro hc; simp [haEngine] at hc) rfl
  · have h := superstep_run (haEngine q) th cp (some v) "human_assistance" [] v.data [] hp
      (by intro hc; simp [haEngine] at hc) rfl rfl
    simpa using h

/-- Witness for C3 at a concrete query, thread, checkpoint and resume value. -/
theorem C3_interrupt_resume_returns_value_witness :
    human_assistance "help" (some ⟨"yes"⟩) = NodeRun.update "yes"
    ∧ (superstep (haEngine "help") ⟨[]⟩ ⟨0, none, [], ["human_assistance"], false, none⟩
        (some ⟨"yes"⟩)).status = Status.done := by
  have h := C3_interrupt_resume_returns_value "help" ⟨[]⟩
    ⟨0, none, [], ["human_assistance"], false, none⟩ rfl
  exact ⟨h.1 ⟨"yes"⟩, by rw [h.2.2 ⟨"yes"⟩]⟩

/-- A tool call requested by the LLM message: name, arguments and call id. -/
structure TCall where
  name : String
  args : String
  id : String
deriving DecidableEq, Repr

/-- An LLM message as consumed by BasicToolNode: its content and its list of
tool calls (getattr with default reads a missing attribute as the empty
list). -/
structure AMsg where
  content : String
  tool_calls : List TCall
deriving DecidableEq, Repr

/-- A ToolMessage produced by BasicToolNode (langchain ToolMessage fields
content, name and tool_call_id). -/
structure ToolMessage where
  content : String
  name : String
  tool_call_id : String
deriving DecidableEq, Repr

/-- Embeds BasicToolNode.__call__ (src/langgraph_impl/chatbot_tool_tavily.py
lines 130 to 153): the messages entry of the input dict defaults to the
empty list when absent; an empty message list raises ValueError; otherwise
one ToolMessage is produced per tool call of the last message, in order,
carrying the serialized result of invoking the named tool on the call's
arguments as content, together with the call's name and id.  The external
tool table and the JSON serializer are opaque parameters. -/
def basicToolCall {tau : Type} (invokeTool : String → String → tau) (jdumps : tau → String)
    (messages : Option (List AMsg)) : Except String (List ToolMessage) :=
  match (messages.getD []).getLast? with
  | none => Except.error "Nenhuma mensagem encontrada no input para BasicToolNode."
  | some message =>
    Except.ok (message.tool_calls.map (fun tc =>
      ⟨jdumps (invokeTool tc.name tc.args), tc.name, tc.id⟩))

/-- The tools node of chatbot_tool_tavily.py wired into the engine: the node
raises exactly when basicToolCall raises; a successful output is the list of
produced tool messages, which the merge appends to the message list. -/
def toolNodeEngine {tau : Type} (invokeTool : String → String → tau) (jdumps : tau → String) :
    Engine (List AMsg) (List ToolMessage) Unit Unit :=
  { nodeFn := fun n s _ =>
      if n = "tools" then
        match basicToolCall invokeTool jdumps (some s) with
        | Except.error e => NodeRun.failure e
        | Except.ok outs => NodeRun.update outs
      else NodeRun.failure "unknown node"
    merge := fun s outs => s ++ outs.map (fun t => ⟨t.content, []⟩)
    route := fun _ _ => Except.ok ["chatbot"]
    interruptBefore := [] }

/-- C5: a superstep in which the executing node raises is atomic on error:
no new checkpoint is written, the thread (hence its head and state) remains
exactly what the last successful checkpoint left, and the node error is
surfaced to the caller; in particular the tools node built from
BasicToolNode raises this way when its input contains no messages. -/
theorem C5_superstep_atomic_on_error :
    (∀ {sigma pi rho phi : Type} (E : Engine sigma pi rho phi) (th : Thread sigma phi)
        (cp : Checkpoint sigma phi) (resume : Option rho) (n : String) (rest : List String)
        (e : String),
      cp.pending = n :: rest →
      ¬(n ∈ E.interruptBefore ∧ cp.waiting = false) →
      E.nodeFn n cp.state resume = NodeRun.failure e →
      superstep E th cp resume = ⟨th, Status.nodeErr e, none, [n]⟩)
    ∧ (∀ {tau : Type} (invokeTool : String → String → tau) (jdumps : tau → String)
        (th : Thread (List AMsg) Unit) (cp : Checkpoint (List AMsg) Unit),
      cp.pending = ["tools"] → cp.state = [] →
      superstep (toolNodeEngine invokeTool jdumps) th cp none =
        ⟨th, Status.nodeErr "Nenhuma mensagem encontrada no input para BasicToolNode.",
          none, ["tools"]⟩) := by
  constructor
  · intro sigma pi rho phi E th cp resume n rest e hp hcond hf
    exact superstep_fail E th cp resume n rest e hp hcond hf
  · intro tau invokeTool jdumps th cp hp hs
    refine superstep_fail _ th cp none "tools" [] _ hp
      (by intro hc; simp [toolNodeEngine] at hc) ?_
    rw [hs]
    simp [toolNodeEngine, basicToolCall]

/-- Witness for C5: a concrete thread whose head has an empty message list;
the superstep surfaces the error and leaves the thread untouched. -/
theorem C5_superstep_atomic_on_error_witness :
    superstep (toolNodeEngine (fun _ _ => (0 : Nat)) (fun _ => "r")) ⟨[]⟩
        ⟨0, none, [], ["tools"], false, none⟩ none =
      ⟨⟨[]⟩, Status.nodeErr "Nenhuma mensagem encontrada no input para BasicToolNode.",
        none, ["tools"]⟩ :=
  C5_superstep_atomic_on_error.2 (fun _ _ => (0 : Nat)) (fun _ => "r") ⟨[]⟩
    ⟨0, none, [], ["tools"], false, none⟩ rfl rfl

theorem superstep_log_cases {sigma pi rho phi : Type} (E : Engine sigma pi rho phi)
    (th : Thread sigma phi) (cp : Checkpoint sigma phi) (resume : Option rho) :
    ((superstep E th cp resume).thread = th ∧ (superstep E th cp resume).newCp = none)
    ∨ ∃ cp2, (superstep E th cp resume).thread.log = th.log ++ [cp2]
        ∧ cp2.id = th.log.length ∧ cp2.parent = some cp.id
        ∧ (superstep E th cp resume).newCp = some cp2 := by
  rcases hp : cp.pending with _ | ⟨n, rest⟩
  · rw [superstep_done E th cp resume hp]
    left
    exact ⟨rfl, rfl⟩
  · by_cases hcond : n ∈ E.interruptBefore ∧ cp.waiting = false
    · rw [superstep_halt E th cp resume n rest hp hcond.1 hcond.2]
      right
      exact ⟨_, rfl, rfl, rfl, rfl⟩
    · rcases hf : E.nodeFn n cp.state resume with ⟨u⟩ | ⟨pl⟩ | ⟨e⟩
      · rcases hr : E.route n (E.merge cp.state u) with ⟨l⟩ | ⟨nxt⟩
        · rw [superstep_routeErr E th cp resume n rest u l hp hcond hf hr]
          left
          exact ⟨rfl, rfl⟩
        · rw [superstep_run E th cp resume n rest u nxt hp hcond hf hr]
          right
          exact ⟨_, rfl, rfl, rfl, rfl⟩
      · rw [superstep_interrupt E th cp resume n rest pl hp hcond hf]
        right
        exact ⟨_, rfl, rfl, rfl, rfl⟩
      · rw [superstep_fail E th cp resume n rest e hp hcond hf]
        left
        exact ⟨rfl, rfl⟩

theorem runLoop_log_extends {sigma pi rho phi : Type} (E : Engine sigma pi rho phi) :
    ∀ (fuel : Nat) (th : Thread sigma phi) (cp : Checkpoint sigma phi) (resume : Option rho),
      ∃ delta : List (Checkpoint sigma phi),
        (runLoop E fuel th cp resume).1.log = th.log ++ delta
        ∧ (∀ c2 ∈ delta, th.log.length ≤ c2.id)
        ∧ (∀ c2, delta.head? = some c2 → c2.parent = some cp.id) := by
  intro fuel
  induction fuel with
  | zero =>
    intro th cp resume
    refine ⟨[], by simp [runLoop], by simp, by simp⟩
  | succ fuel ih =>
    intro th cp resume
    rcases superstep_log_cases E th cp resume with ⟨hth, hcp⟩ | ⟨cp2, hlog, hid, hpar, hcp⟩
    · refine ⟨[], ?_, by simp, by simp⟩
      show (runLoop E (fuel + 1) th cp resume).1.log = th.log ++ []
      rw [runLoop, hcp, hth]
      simp
    · by_cases hst : (superstep E th cp resume).status = Status.running
      · obtain ⟨delta, h1, h2, h3⟩ := ih (superstep E th cp resume).thread cp2 none
        refine ⟨cp2 :: delta, ?_, ?_, ?_⟩
        · rw [runLoop, hcp]
          simp only [hst, eq_self_iff_true, if_true]
          rw [h1, hlog]
          simp
        · intro c2 hc2
          rcases List.mem_cons.mp hc2 with hc2 | hc2
          · subst hc2
            exact Nat.le_of_eq hid.symm
          · have := h2 c2 hc2
            rw [hlog] at this
            simp at this
            omega
        · intro c2 hc2
          simp at hc2
          subst hc2
          exact hpar
      · refine ⟨[cp2], ?_, ?_, ?_⟩
        · rw [runLoop, hcp]
          simp only [if_neg hst]
          exact hlog
        · intro c2 hc2
          simp at hc2
          subst hc2
          exact Nat.le_of_eq hid.symm
        · intro c2 hc2
          simp at hc2
          subst hc2
          exact hpar

/-- C6: resuming execution from any chosen checkpoint (in particular one
strictly earlier than the thread's head, as the time-travel replay of
06_chatbot_time_travel.py lines 183 to 206 does) only appends to the
append-only per-thread log: every new checkpoint receives a fresh id never
used by an existing checkpoint, the first new checkpoint has the chosen
checkpoint as its parent, and every checkpoint of the original branch
remains retrievable and unmodified (the old prefix of the log is preserved
verbatim). -/
theorem C6_time_travel_fork {sigma pi rho phi : Type} (E : Engine sigma pi rho phi)
    (fuel : Nat) (th : Thread sigma phi) (cp : Checkpoint sigma phi) (resume : Option rho)
    (hwf : ∀ c1 ∈ th.log, c1.id < th.log.length) :
    ∃ delta : List (Checkpoint sigma phi),
      (runLoop E fuel th cp resume).1.log = th.log ++ delta
      ∧ (runLoop E fuel th cp resume).1.log.take th.log.length = th.log
      ∧ (∀ c1 ∈ th.log, c1 ∈ (runLoop E fuel th cp resume).1.log)
      ∧ (∀ c2 ∈ delta, ∀ c1 ∈ th.log, c1.id ≠ c2.id)
      ∧ (∀ c2, delta.head? = some c2 → c2.parent = some cp.id) := by
  obtain ⟨delta, h1, h2, h3⟩ := runLoop_log_extends E fuel th cp resume
  refine ⟨delta, h1, ?_, ?_, ?_, h3⟩
  · rw [h1]
    exact List.take_left th.log delta
  · intro c1 hc1
    rw [h1]
    exact List.mem_append_left _ hc1
  · intro c2 hc2 c1 hc1
    have ha := hwf c1 hc1
    have hb := h2 c2 hc2
    omega

/-- Witness for C6 on a concrete engine and a one-checkpoint thread. -/
theorem C6_time_travel_fork_witness :
    (runLoop (haEngine "q") 1 ⟨[⟨0, none, [], [], false, none⟩]⟩
      ⟨0, none, [], [], false, none⟩ none).1.log.take 1 = [⟨0, none, [], [], false, none⟩] := by
  obtain ⟨delta, h1, h2, h3, h4, h5⟩ :=
    C6_time_travel_fork (haEngine "q") 1 ⟨[⟨0, none, [], [], false, none⟩]⟩
      ⟨0, none, [], [], false, none⟩ none (by decide)
  exact h2

/-- The custom state of 05_chatbot_custom_state.py (lines 65 to 68): the
messages key with the add_messages reducer plus the overwrite keys name and
birthday. -/
structure CState where
  messages : List Msg
  name : String
  birthday : String
deriving DecidableEq, Repr

/-- A partial state update naming only some keys. -/
structure CPatch where
  messages : Option (List Msg)
  name : Option String
  birthday : Option String
deriving DecidableEq, Repr

/-- Modelled from the spec: merging a partial state patch via each key's
reducer (spec sections 4.2 and 4.3: overwrite for name and birthday,
add_messages for messages); keys not named by the patch are left
untouched. -/
def mergePatch (s : CState) (p : CPatch) : CState :=
  { messages :=
      match p.messages with
      | some u => add_messages s.messages u
      | none => s.messages
    name :=
      match p.name with
      | some v => v
      | none => s.name
    birthday :=
      match p.birthday with
      | some v => v
      | none => s.birthday }

/-- Modelled from the spec: a Command carrying an update payload (issued by
graph.update_state at 05_chatbot_custom_state.py lines 237 to 248) merges
the patch into the head state via the reducers and persists a new
checkpoint; the operation takes no node functions at all, so no node can be
re-run by it. -/
def updateStateCmd {phi : Type} (th : Thread CState phi) (cp : Checkpoint CState phi)
    (p : CPatch) : Thread CState phi × Checkpoint CState phi :=
  putCp th (some cp.id) (mergePatch cp.state p) cp.pending cp.waiting cp.payload

/-- C7: applying a Command update merges only the supplied keys into the
state via their reducers (overwrite for name and birthday, add_messages for
messages) and persists one new checkpoint without running any node, and
every state key not named in the patch (for a name-only patch: birthday and
messages) is unchanged in the resulting checkpoint. -/
theorem C7_command_update_frame {phi : Type} (th : Thread CState phi)
    (cp : Checkpoint CState phi) (p : CPatch) :
    ((updateStateCmd th cp p).1.log = th.log ++ [(updateStateCmd th cp p).2]
      ∧ (updateStateCmd th cp p).2.state = mergePatch cp.state p
      ∧ (updateStateCmd th cp p).2.pending = cp.pending)
    ∧ (p.name = none → (mergePatch cp.state p).name = cp.state.name)
    ∧ (p.birthday = none → (mergePatch cp.state p).birthday = cp.state.birthday)
    ∧ (p.messages = none → (mergePatch cp.state p).messages = cp.state.messages)
    ∧ (∀ u, (mergePatch cp.state ⟨some u, none, none⟩).messages
        = add_messages cp.state.messages u)
    ∧ (∀ nm, (mergePatch cp.state ⟨none, some nm, none⟩).name = nm
        ∧ (mergePatch cp.state ⟨none, some nm, none⟩).birthday = cp.state.birthday
        ∧ (mergePatch cp.state ⟨none, some nm, none⟩).messages = cp.state.messages) := by
  refine ⟨⟨rfl, rfl, rfl⟩, ?_, ?_, ?_, fun u => rfl, fun nm => ⟨rfl, rfl, rfl⟩⟩
  · intro h
    simp [mergePatch, h]
  · intro h
    simp [mergePatch, h]
  · intro h
    simp [mergePatch, h]

/-- Witness for C7: a name-only patch keeps birthday and messages intact. -/
theorem C7_command_update_frame_witness :
    (mergePatch ⟨[⟨1, "hi"⟩], "Will", "Jan 1"⟩ ⟨none, some "Bill", none⟩).name = "Bill"
    ∧ (mergePatch ⟨[⟨1, "hi"⟩], "Will", "Jan 1"⟩ ⟨none, some "Bill", none⟩).birthday = "Jan 1"
    ∧ (mergePatch ⟨[⟨1, "hi"⟩], "Will", "Jan 1"⟩ ⟨none, some "Bill", none⟩).messages
        = [⟨1, "hi"⟩] := by
  have h := C7_command_update_frame (⟨[]⟩ : Thread CState Unit)
    ⟨0, none, ⟨[⟨1, "hi"⟩], "Will", "Jan 1"⟩, [], false, none⟩ ⟨none, some "Bill", none⟩
  exact h.2.2.2.2.2 "Bill"

/-- The START sentinel node name. -/
def START : String := "__start__"

/-- The END sentinel label. -/
def END : String := "__end__"

/-- Modelled from the spec: a graph under construction (GraphDefinition,
spec section 4.1): declared nodes, static edges, and conditional edges with
their label-to-target maps. -/
structure Builder where
  nodes : List String
  edges : List (String × String)
  conds : List (String × List (String × String))
deriving DecidableEq, Repr

/-- A compile-time structural defect, identifying the offending node or
edge. -/
inductive GraphDefError where
  | badEdge (e : String × String)
  | badCond (src : String) (labels : List (String × String))
  | noOutgoing (n : String)
  | notReachable (n : String)
deriving DecidableEq, Repr

/-- The validated immutable compiled graph. -/
structure CompiledGraph where
  nodes : List String
  edges : List (String × String)
  conds : List (String × List (String × String))
deriving DecidableEq, Repr

/-- Whether n is a declared node of the builder. -/
def declared (b : Builder) (n : String) : Bool := b.nodes.contains n

/-- An edge is well formed when its source is a declared node or START and
its target is a declared node or END. -/
def edgeOk (b : Builder) (e : String × String) : Bool :=
  (declared b e.1 || e.1 == START) && (declared b e.2 || e.2 == END)

/-- A conditional edge is well formed when its source is declared and every
label-map target is a declared node or END. -/
def condOk (b : Builder) (c : String × List (String × String)) : Bool :=
  declared b c.1 && c.2.all (fun lt => declared b lt.2 || lt.2 == END)

/-- Successor node names of n along static and conditional edges. -/
def succs (b : Builder) (n : String) : List String :=
  (b.edges.filter (fun e => e.1 == n)).map (fun e => e.2)
    ++ (b.conds.filter (fun c => c.1 == n)).foldr (fun c acc => c.2.map (fun lt => lt.2) ++ acc) []

/-- Whether n has at least one outgoing static or conditional edge. -/
def hasOutgoing (b : Builder) (n : String) : Bool := !(succs b n).isEmpty

/-- Names reached from START after at most k expansion rounds. -/
def reachIter (b : Builder) : Nat → List String
  | 0 => [START]
  | Nat.succ k =>
    let acc := reachIter b k
    acc ++ ((acc.foldr (fun n l => succs b n ++ l) []).filter (fun m => !(acc.contains m)))

/-- Whether n is reachable from the START sentinel. -/
def reachableFromStart (b : Builder) (n : String) : Bool :=
  (reachIter b b.nodes.length).contains n

/-- Modelled from the spec: compile() validation (spec section 4.1): every
edge endpoint references a declared node or a sentinel, conditional label
maps target declared nodes or END, every node has at least one outgoing
edge, and every node is reachable from START; the first violation is
reported as a GraphDefError identifying the offending node or edge and no
graph is returned; otherwise the immutable CompiledGraph is produced. -/
def compileGraph (b : Builder) : Except GraphDefError CompiledGraph :=
  match b.edges.find? (fun e => !(edgeOk b e)) with
  | some e => Except.error (GraphDefError.badEdge e)
  | none =>
    match b.conds.find? (fun c => !(condOk b c)) with
    | some c => Except.error (GraphDefError.badCond c.1 c.2)
    | none =>
      match b.nodes.find? (fun n => !(hasOutgoing b n)) with
      | some n => Except.error (GraphDefError.noOutgoing n)
      | none =>
        match b.nodes.find? (fun n => !(reachableFromStart b n)) with
        | some n => Except.error (GraphDefError.notReachable n)
        | none => Except.ok ⟨b.nodes, b.edges, b.conds⟩

/-- The graph built by 01_chatbot.py lines 33 to 40: the single chatbot
node, an entry edge from START and an exit edge to END. -/
def chatbotBuilder : Builder :=
  ⟨["chatbot"], [(START, "chatbot"), ("chatbot", END)], []⟩

/-- C8: compiling a graph containing an edge whose endpoint references an
undeclared node (neither a declared node nor a sentinel) yields a
GraphDefError identifying an offending edge and returns no graph (the
result is the error alternative, so no partial graph exists); successful
compilation of the well-formed chatbot graph yields the immutable
CompiledGraph. -/
theorem C8_compile_rejects_undeclared_endpoint :
    (∀ b : Builder, (∃ e ∈ b.edges, edgeOk b e = false) →
      ∃ e2 ∈ b.edges, edgeOk b e2 = false
        ∧ compileGraph b = Except.error (GraphDefError.badEdge e2))
    ∧ compileGraph chatbotBuilder =
        Except.ok ⟨["chatbot"], [(START, "chatbot"), ("chatbot", END)], []⟩ := by
  constructor
  · intro b hex
    have hsome : (b.edges.find? (fun e => !(edgeOk b e))).isSome := by
      rw [List.find?_isSome]
      obtain ⟨e, he, hbad⟩ := hex
      exact ⟨e, he, by rw [hbad]; rfl⟩
    obtain ⟨e2, hfind⟩ := Option.isSome_iff_exists.mp hsome
    refine ⟨e2, List.mem_of_find?_eq_some hfind, ?_, ?_⟩
    · have hb := List.find?_some hfind
      simpa using hb
    · unfold compileGraph
      rw [hfind]
  · rfl

/-- Witness for C8: a graph with an edge to the undeclared node ghost is
rejected with the offending edge identified. -/
theorem C8_compile_rejects_undeclared_endpoint_witness :
    ∃ e2 ∈ (⟨["chatbot"], [("chatbot", "ghost")], []⟩ : Builder).edges,
      edgeOk ⟨["chatbot"], [("chatbot", "ghost")], []⟩ e2 = false
      ∧ compileGraph ⟨["chatbot"], [("chatbot", "ghost")], []⟩
          = Except.error (GraphDefError.badEdge e2) :=
  C8_compile_rejects_undeclared_endpoint.1 ⟨["chatbot"], [("chatbot", "ghost")], []⟩
    ⟨("chatbot", "ghost"), by decide, by decide⟩

/-- An LLM message as inspected by route_tools: its content plus the
optional tool_calls attribute (none models a message object without the
attribute, which the source checks via hasattr). -/
structure RMsg where
  content : String
  tool_calls : Option (List TCall)
deriving DecidableEq, Repr

/-- Embeds route_tools (src/langgraph_impl/chatbot_tool_tavily.py lines 167
to 186): the last message of the state's message list is examined; an empty
state raises ValueError; if the message has a tool_calls attribute of
positive length the label tools is returned, otherwise END. -/
def route_tools (messages : List RMsg) : Except String String :=
  match messages.getLast? with
  | none => Except.error "Nenhuma mensagem encontrada no estado para route_tools"
  | some m =>
    match m.tool_calls with
    | some tcs => if tcs.length > 0 then Except.ok "tools" else Except.ok END
    | none => Except.ok END

/-- A conditional edge resolution failure. -/
inductive RouteErr where
  | unmapped (label : String)
  | inner (e : String)
deriving DecidableEq, Repr

/-- Modelled from the spec: conditional edge resolution (spec section 4.3
step 7): invoke the routing function on the merged state and map its return
value through the declared label map to exactly one next node or END; a
return value absent from the map is a RoutingError. -/
def resolveCond {sigma : Type} (routeFn : sigma → Except String String)
    (labelMap : List (String × String)) (s : sigma) : Except RouteErr String :=
  match routeFn s with
  | Except.error e => Except.error (RouteErr.inner e)
  | Except.ok label =>
    match labelMap.find? (fun lt => lt.1 == label) with
    | some lt => Except.ok lt.2
    | none => Except.error (RouteErr.unmapped label)

/-- The label map declared for route_tools at chatbot_tool_tavily.py lines
188 to 192. -/
def toolsLabelMap : List (String × String) := [("tools", "tools"), (END, END)]

/-- C4: conditional edge resolution invokes the routing function on the
merged state and maps its return value through the declared label map to
exactly one next target; through the declared map, route_tools resolves to
the tools node exactly when the last message of the state has a non-empty
tool_calls attribute, and to END otherwise; and a routing-function return
value absent from the declared map yields a RoutingError naming the
label. -/
theorem route_tools_eq (ms : List RMsg) (m : RMsg) (h : ms.getLast? = some m) :
    route_tools ms = (match m.tool_calls with
      | some tcs => if tcs.length > 0 then Except.ok "tools" else Except.ok END
      | none => Except.ok END) := by
  unfold route_tools
  rw [h]

theorem resolveCond_of_ok {sigma : Type} (f : sigma → Except String String)
    (lm : List (String × String)) (s : sigma) (label : String)
    (h : f s = Except.ok label) :
    resolveCond f lm s = (match lm.find? (fun lt => lt.1 == label) with
      | some lt => Except.ok lt.2
      | none => Except.error (RouteErr.unmapped label)) := by
  unfold resolveCond
  rw [h]

theorem C4_route_tools_resolution :
    (∀ (ms : List RMsg) (m : RMsg), ms.getLast? = some m →
      (resolveCond route_tools toolsLabelMap ms = Except.ok "tools" ↔
        ∃ tcs, m.tool_calls = some tcs ∧ 0 < tcs.length)
      ∧ ((¬ ∃ tcs, m.tool_calls = some tcs ∧ 0 < tcs.length) →
          resolveCond route_tools toolsLabelMap ms = Except.ok END))
    ∧ (∀ {sigma : Type} (f : sigma → Except String String) (s : sigma) (label : String),
        f s = Except.ok label → label ≠ "tools" → label ≠ END →
        resolveCond f toolsLabelMap s = Except.error (RouteErr.unmapped label)) := by
  constructor
  · intro ms m hlast
    have hEnd : (¬ ∃ tcs, m.tool_calls = some tcs ∧ 0 < tcs.length) →
        resolveCond route_tools toolsLabelMap ms = Except.ok END := by
      intro hno
      have hroute : route_tools ms = Except.ok END := by
        rw [route_tools_eq ms m hlast]
        rcases htc : m.tool_calls with _ | tcs
        · rfl
        · have hlen : ¬ tcs.length > 0 := fun hl => hno ⟨tcs, htc, hl⟩
          show (if tcs.length > 0 then Except.ok "tools" else Except.ok END) = Except.ok END
          rw [if_neg hlen]
      rw [resolveCond_of_ok route_tools toolsLabelMap ms END hroute]
      rfl
    refine ⟨⟨?_, ?_⟩, hEnd⟩
    · intro hres
      by_contra hno
      rw [hEnd hno] at hres
      have hcontra : END = "tools" := Except.ok.inj hres
      exact absurd hcontra (by decide)
    · rintro ⟨tcs, htc, hlen⟩
      have hroute : route_tools ms = Except.ok "tools" := by
        rw [route_tools_eq ms m hlast]
        rw [htc]
        show (if tcs.length > 0 then Except.ok "tools" else Except.ok END) = Except.ok "tools"
        rw [if_pos hlen]
      rw [resolveCond_of_ok route_tools toolsLabelMap ms "tools" hroute]
      rfl
  · intro sigma f s label hok hn1 hn2
    have hfind : toolsLabelMap.find? (fun lt => lt.1 == label) = none := by
      rw [List.find?_eq_none]
      intro lt hlt
      rcases List.mem_cons.mp hlt with rfl | hlt2
      · simp
        exact fun hc => hn1 hc.symm
      · rcases List.mem_cons.mp hlt2 with rfl | hlt3
        · simp
          exact fun hc => hn2 hc.symm
        · exact absurd hlt3 (List.not_mem_nil lt)
    rw [resolveCond_of_ok f toolsLabelMap s label hok]
    rw [hfind]

/-- Witness for C4 at concrete message lists and a concrete unmapped
label. -/
theorem C4_route_tools_resolution_witness :
    resolveCond route_tools toolsLabelMap [⟨"hi", some [⟨"search", "q", "1"⟩]⟩] =
      Except.ok "tools"
    ∧ resolveCond route_tools toolsLabelMap [⟨"hi", none⟩] = Except.ok END
    ∧ resolveCond (fun _ : Unit => Except.ok "elsewhere") toolsLabelMap () =
        Except.error (RouteErr.unmapped "elsewhere") := by
  have h1 := (C4_route_tools_resolution.1 [⟨"hi", some [⟨"search", "q", "1"⟩]⟩]
    ⟨"hi", some [⟨"search", "q", "1"⟩]⟩ rfl).1.mpr ⟨[⟨"search", "q", "1"⟩], rfl, by decide⟩
  have h2 := (C4_route_tools_resolution.1 [⟨"hi", none⟩] ⟨"hi", none⟩ rfl).2 (by
    rintro ⟨tcs, htc, hlen⟩
    exact Option.noConfusion htc)
  have h3 := C4_route_tools_resolution.2 (fun _ : Unit => Except.ok "elsewhere") ()
    "elsewhere" rfl (by decide) (by decide)
  exact ⟨h1, h2, h3⟩

/-- Embeds the chatbot node of chatbot_hitl.py lines 108 to 117 and
05_chatbot_custom_state.py lines 130 to 137: the LLM (an opaque external
parameter) produces a message from the current message list; the node
asserts that the message carries at most one tool call, failing otherwise,
and returns the single-message update. -/
def chatbot_node (llm : List AMsg → AMsg) (s : List AMsg) : Except String (List AMsg) :=
  let message := llm s
  if message.tool_calls.length ≤ 1 then Except.ok [message]
  else Except.error "Multiplas tool_calls detectadas!"

/-- C9: the chatbot node asserts that the LLM message it produces contains
at most one tool call: whenever the invoked model's reply carries more than
one tool call the node raises before returning, so every message the node
successfully returns has at most one tool call. -/
theorem C9_chatbot_at_most_one_tool_call :
    (∀ (llm : List AMsg → AMsg) (s : List AMsg) (out : List AMsg),
      chatbot_node llm s = Except.ok out → ∀ m ∈ out, m.tool_calls.length ≤ 1)
    ∧ (∀ (llm : List AMsg → AMsg) (s : List AMsg),
      1 < (llm s).tool_calls.length →
      chatbot_node llm s = Except.error "Multiplas tool_calls detectadas!") := by
  constructor
  · intro llm s out hok m hm
    unfold chatbot_node at hok
    by_cases h : (llm s).tool_calls.length ≤ 1
    · rw [if_pos h] at hok
      have hout : [llm s] = out := Except.ok.inj hok
      rw [← hout] at hm
      rw [List.mem_singleton] at hm
      subst hm
      exact h
    · rw [if_neg h] at hok
      exact Except.noConfusion hok
  · intro llm s hlen
    unfold chatbot_node
    rw [if_neg (by omega)]

/-- Witness for C9: a model reply with two tool calls trips the assertion;
a reply with none passes through. -/
theorem C9_chatbot_at_most_one_tool_call_witness :
    chatbot_node (fun _ => ⟨"hi", [⟨"t", "a", "1"⟩, ⟨"t", "b", "2"⟩]⟩) [] =
      Except.error "Multiplas tool_calls detectadas!"
    ∧ ∀ m ∈ ([⟨"ok", []⟩] : List AMsg), m.tool_calls.length ≤ 1 :=
  ⟨C9_chatbot_at_most_one_tool_call.2 (fun _ => ⟨"hi", [⟨"t", "a", "1"⟩, ⟨"t", "b", "2"⟩]⟩)
      [] (by decide),
   C9_chatbot_at_most_one_tool_call.1 (fun _ => ⟨"ok", []⟩) [] [⟨"ok", []⟩] rfl⟩

/-- C10: basicToolCall raises ValueError exactly when the input has no
messages entry or an empty message list; otherwise it returns one
ToolMessage per tool call of the last input message, in the same order,
each carrying the serialized tool result as content and the originating
call's name and id; an empty tool_calls list yields an empty output list,
not an error. -/
theorem C10_basicToolCall_spec {tau : Type} (invokeTool : String → String → tau)
    (jdumps : tau → String) (messages : Option (List AMsg)) :
    ((∃ e, basicToolCall invokeTool jdumps messages = Except.error e) ↔
      (messages = none ∨ messages = some []))
    ∧ (∀ (ms : List AMsg) (m : AMsg), messages = some ms → ms.getLast? = some m →
        basicToolCall invokeTool jdumps messages =
          Except.ok (m.tool_calls.map (fun tc =>
            ⟨jdumps (invokeTool tc.name tc.args), tc.name, tc.id⟩))
        ∧ (∀ outs, basicToolCall invokeTool jdumps messages = Except.ok outs →
            outs.length = m.tool_calls.length)
        ∧ (m.tool_calls = [] → basicToolCall invokeTool jdumps messages = Except.ok [])) := by
  constructor
  · constructor
    · rintro ⟨e, he⟩
      rcases messages with _ | ms
      · exact Or.inl rfl
      · rcases ms with _ | ⟨x, xs⟩
        · exact Or.inr rfl
        · exfalso
          unfold basicToolCall at he
          rcases hlast : (x :: xs).getLast? with _ | m
          · rw [List.getLast?_eq_none_iff] at hlast
            exact List.noConfusion hlast
          · rw [Option.getD_some] at he
            rw [hlast] at he
            exact Except.noConfusion he
    · rintro (rfl | rfl)
      · exact ⟨"Nenhuma mensagem encontrada no input para BasicToolNode.", rfl⟩
      · exact ⟨"Nenhuma mensagem encontrada no input para BasicToolNode.", rfl⟩
  · intro ms m hms hlast
    subst hms
    have h1 : basicToolCall invokeTool jdumps (some ms) =
        Except.ok (m.tool_calls.map (fun tc =>
          ⟨jdumps (invokeTool tc.name tc.args), tc.name, tc.id⟩)) := by
      unfold basicToolCall
      rw [Option.getD_some]
      rw [hlast]
    refine ⟨h1, ?_, ?_⟩
    · intro outs houts
      rw [h1] at houts
      have heq := Except.ok.inj houts
      rw [← heq]
      exact List.length_map _ _
    · intro hnil
      rw [h1, hnil]
      rfl

/-- Witness for C10 at a concrete serializer, tool table and message
list. -/
theorem C10_basicToolCall_spec_witness :
    basicToolCall (fun n a => n ++ a) (fun r => r) (some [⟨"hi", [⟨"search", "q", "7"⟩]⟩]) =
      Except.ok [⟨"searchq", "search", "7"⟩]
    ∧ ((∃ e, basicToolCall (fun n a => n ++ a) (fun r => r)
        (none : Option (List AMsg)) = Except.error e) ↔
      ((none : Option (List AMsg)) = none ∨ (none : Option (List AMsg)) = some [])) := by
  have h := C10_basicToolCall_spec (fun n a => n ++ a) (fun r => r)
    (some [⟨"hi", [⟨"search", "q", "7"⟩]⟩])
  have h2 := C10_basicToolCall_spec (fun n a => n ++ a) (fun r => r)
    (none : Option (List AMsg))
  exact ⟨(h.2 [⟨"hi", [⟨"search", "q", "7"⟩]⟩] ⟨"hi", [⟨"search", "q", "7"⟩]⟩ rfl rfl).1, h2.1⟩
